import Mathlib

/-!
# Verification of the sendme collection assembly and transfer progress logic

This file is a shallow embedding, in Lean 4, of the application-level logic of
`src/src/main.rs`:

* the path sanitizer (`validate_path_component`, `canonicalized_path_to_string`),
* the export-path reconstruction (`get_export_path`) and materialization loop (`export`),
* the import pipeline (`import`): directory walk, entry naming, concurrent
  ingestion, collection assembly and persistence,
* the download progress reducer (`show_download_progress`),
* the outcome handling of `main` and `provide`.

Rust machine integers that occur (byte counts, child indices) are modelled as
`Nat`; fallible Rust functions returning `anyhow::Result` are modelled with
`Except String`.  Since the Lean core string functions (`String.splitOn`,
`String.contains`, ...) do not reduce in the kernel, the byte-level string
operations used by the source are re-implemented over `String.data` (the
character list of a string) with the same semantics.
-/

namespace Sendme

/-! ## Character-list string helpers

These mirror the Rust string operations used by `main.rs`, implemented over
`String.data` so that they are executable in the kernel. -/

/-- Membership of a character in a string, i.e. Rust's `str::contains(char)`. -/
def strContains (s : String) (c : Char) : Bool :=
  s.data.contains c

/-- Split a character list at every occurrence of `sep`.  An empty input yields
`[[]]`, matching Rust's `"".split(sep)` which yields one empty item. -/
def splitChars (sep : Char) : List Char → List (List Char)
  | [] => [[]]
  | c :: rest =>
    let r := splitChars sep rest
    if c = sep then [] :: r
    else
      match r with
      | [] => [[c]]
      | h :: t => (c :: h) :: t

/-- Rust's `str::split('/')`, producing the segments as strings. -/
def splitOnSlash (s : String) : List String :=
  (splitChars '/' s.data).map fun l => { data := l }

/-- Join a list of segments with `'/'`, i.e. Rust's `Vec::join("/")`. -/
def joinSlash : List String → String
  | [] => ""
  | [s] => s
  | s :: rest => s ++ "/" ++ joinSlash rest

/-- Whether the string starts with the path separator `'/'`. -/
def startsWithSlash (s : String) : Bool :=
  match s.data with
  | c :: _ => c = '/'
  | [] => false

/-! ## Rust `std::path` component model

`std::path::Path::components` on Unix parses a path into components:
a leading `/` becomes `Component::RootDir`; every nonempty `/`-separated
segment becomes `Component::ParentDir` when it is `".."`, and
`Component::Normal` otherwise; `"."` segments are dropped, except that a
leading `"."` of a relative path is kept as `Component::CurDir`. -/

inductive Component where
  | rootDir : Component
  | curDir : Component
  | parentDir : Component
  | normal (s : String) : Component
deriving DecidableEq

/-- Turn the raw `/`-separated segments of a path into its `Component`s,
following the normalization of Rust's `Path::components` described above.
`isAbs` records whether the path began with `/`. -/
def componentsOfSegments (isAbs : Bool) (segs : List String) : List Component :=
  (if isAbs then [Component.rootDir]
    else
      match segs.filter fun s => s ≠ "" with
      | h :: _ => if h = "." then [Component.curDir] else []
      | [] => [])
  ++ ((segs.filter fun s => s ≠ "").filter fun s => s ≠ ".").map fun s =>
    if s = ".." then Component.parentDir else Component.normal s

/-- The `Component`s of a path given as a string (Unix rules). -/
def parseComponents (s : String) : List Component :=
  componentsOfSegments (startsWithSlash s) (splitOnSlash s)

/-! ## `canonicalized_path_to_string` (main.rs 132-167)

The Rust function iterates over the components of the path with `filter_map`:
a `Normal` component must contain neither `/` nor `\`; a `RootDir` component
is an error when `must_be_relative`, and otherwise pushes a leading `/` onto
the output and is filtered out of the part list; every other component
(`CurDir`, `ParentDir`, prefixes) is an error.  The collected parts are then
joined with `/` and appended to the (possibly `/`-prefixed) output string. -/

/-- The component traversal of `canonicalized_path_to_string`: returns whether
a leading slash was emitted together with the collected normal parts, or the
first error in component order. -/
def collectParts (must_be_relative : Bool) : List Component → Except String (Bool × List String)
  | [] => Except.ok (false, [])
  | c :: rest =>
    match c with
    | Component.normal x =>
      if strContains x '/' || strContains x '\\' then
        Except.error ("invalid path component " ++ x)
      else
        (collectParts must_be_relative rest).map fun p => (p.1, x :: p.2)
    | Component.rootDir =>
      if must_be_relative then Except.error "invalid path component RootDir"
      else (collectParts must_be_relative rest).map fun p => (true, p.2)
    | _ => Except.error "invalid path component"

/-- `canonicalized_path_to_string` on an explicit component list. -/
def canonicalizedComponentsToString (cs : List Component) (must_be_relative : Bool) :
    Except String String :=
  (collectParts must_be_relative cs).map fun p =>
    (if p.1 then "/" else "") ++ joinSlash p.2

/-- `canonicalized_path_to_string` (main.rs 132-167) on a path string. -/
def canonicalized_path_to_string (path : String) (must_be_relative : Bool) :
    Except String String :=
  canonicalizedComponentsToString (parseComponents path) must_be_relative

/-! ## `validate_path_component` and `get_export_path` (main.rs 116-122, 234-242) -/

/-- `validate_path_component` (main.rs 116-122): rejects a component exactly
when it contains a `/`. -/
def validate_path_component (component : String) : Except String Unit :=
  if strContains component '/' then
    Except.error "path components must not contain the only correct path separator, /"
  else Except.ok ()

/-- Rust `PathBuf::push` of a single segment that contains no `/`: pushing the
empty string leaves the component list unchanged, every other segment
(including `..`, `.` and segments containing `\`) is appended verbatim. -/
def pushComponent (path : List String) (part : String) : List String :=
  if part = "" then path else path ++ [part]

/-- The loop of `get_export_path` over the split name. -/
def exportPathLoop : List String → List String → Except String (List String)
  | [], path => Except.ok path
  | part :: rest, path =>
    match validate_path_component part with
    | Except.error e => Except.error e
    | Except.ok _ => exportPathLoop rest (pushComponent path part)

/-- `get_export_path` (main.rs 234-242): split the stored entry name on `/`,
validate each part with `validate_path_component`, and push each part onto the
destination root.  Paths are modelled as component lists. -/
def get_export_path (root : List String) (name : String) : Except String (List String) :=
  exportPathLoop (splitOnSlash name) root

/-- Operating-system resolution of `.` and `..` in a path, with a component
stack; `..` at the top pops (above the root it is dropped).  Used to state
where a produced export path actually lands. -/
def resolveDotsAux (stack : List String) : List String → List String
  | [] => stack.reverse
  | c :: rest =>
    if c = ".." then
      match stack with
      | [] => resolveDotsAux [] rest
      | _ :: t => resolveDotsAux t rest
    else if c = "." then resolveDotsAux stack rest
    else resolveDotsAux (c :: stack) rest

/-- Resolve all `.` and `..` components of a path. -/
def resolveDots (p : List String) : List String :=
  resolveDotsAux [] p

/-! ## The import pipeline (main.rs 176-232)

`import` canonicalizes the root, takes the parent of the canonicalized root,
walks the tree with `WalkDir` (which also yields the root itself and does not
follow symbolic links), keeps only regular files, names every file by its path
relative to the parent of the root via `canonicalized_path_to_string`, ingests
all files with a `buffer_unordered` worker pool, and finally assembles the
`(name, hash)` pairs into a `Collection` and stores it.

The filesystem is modelled as a tree of named nodes.  A path is a list of
component names; the walk starts from the parent of the canonicalized root, so
paths produced by the walk are already relative to that parent and begin with
the root node's own name.  Since the source consumes the `Path` returned by
`strip_prefix` directly (never a re-parsed string), entry names are computed
with `canonicalizedComponentsToString` on the component list of the relative
path. -/

mutual
inductive FSNode where
  | file (name : String) : FSNode
  | symlink (name : String) : FSNode
  | dir (name : String) (children : FSList) : FSNode
inductive FSList where
  | nil : FSList
  | cons (hd : FSNode) (tl : FSList) : FSList
end

/-- The name of the node itself (its last path component). -/
def nodeName : FSNode → String
  | FSNode.file n => n
  | FSNode.symlink n => n
  | FSNode.dir n _ => n

mutual
/-- `WalkDir` enumeration: every entry reachable from the node, in depth-first
order with the node itself first, tagged with whether it is a regular file.
Directories are yielded (and filtered out by `import` because they are not
files); symbolic links are yielded with `is_file() = false` because `WalkDir`
does not follow links. -/
def walkdirAux (pre : List String) : FSNode → List (List String × Bool)
  | FSNode.file n => [(pre ++ [n], true)]
  | FSNode.symlink n => [(pre ++ [n], false)]
  | FSNode.dir n cs => (pre ++ [n], false) :: walkdirList (pre ++ [n]) cs
def walkdirList (pre : List String) : FSList → List (List String × Bool)
  | FSList.nil => []
  | FSList.cons h t => walkdirAux pre h ++ walkdirList pre t
end

mutual
/-- The paths (relative to the parent of the root) of the regular files
reachable from a node: a file contributes itself, a symbolic link contributes
nothing, a directory contributes the files of its children in order. -/
def regularFiles (pre : List String) : FSNode → List (List String)
  | FSNode.file n => [pre ++ [n]]
  | FSNode.symlink _ => []
  | FSNode.dir n cs => regularFilesList (pre ++ [n]) cs
def regularFilesList (pre : List String) : FSList → List (List String)
  | FSList.nil => []
  | FSList.cons h t => regularFiles pre h ++ regularFilesList pre t
end

/-- A well-formed filesystem name: what a Unix directory entry can actually
be called.  `readdir` never yields `""`, `"."` or `".."`, and a name cannot
contain the separator `/`.  A backslash is additionally excluded because a
file whose name contains one makes the whole import fail (such trees are
outside the success case the naming claim describes). -/
def validName (s : String) : Bool :=
  !(s = "") && !(s = ".") && !(s = "..") && !(strContains s '/') && !(strContains s '\\')

mutual
/-- Every node name in the tree is a well-formed filesystem name. -/
def validTree : FSNode → Bool
  | FSNode.file n => validName n
  | FSNode.symlink n => validName n
  | FSNode.dir n cs => validName n && validTreeList cs
def validTreeList : FSList → Bool
  | FSList.nil => true
  | FSList.cons h t => validTree h && validTreeList t
end

/-- The naming step of `import` (main.rs 188-201) applied to the regular-file
paths in walk order: each path is turned into an entry name with
`canonicalized_path_to_string(relative, true)`; the first failure aborts the
whole list, as `collect::<anyhow::Result<Vec<_>>>` does. -/
def buildNames : List (List String) → Except String (List (String × List String))
  | [] => Except.ok []
  | p :: rest =>
    match canonicalizedComponentsToString (componentsOfSegments false p) true with
    | Except.error e => Except.error e
    | Except.ok name =>
      match buildNames rest with
      | Except.error e => Except.error e
      | Except.ok r => Except.ok ((name, p) :: r)

/-- `data_sources` of `import` (main.rs 188-201): walk the canonicalized root
from its parent, keep regular files, and name each by its sanitized path
relative to the parent of the root. -/
def dataSources (root : FSNode) : Except String (List (String × List String)) :=
  buildNames ((walkdirAux [] root).filterMap fun pr => if pr.2 then some pr.1 else none)

/-- The ingestion of all data sources (main.rs 203-218), modelled with an
oracle `ingest` mapping a file path to its `(hash, size)` or an ingestion
error; `collect::<anyhow::Result<Vec<_>>>` keeps all results only when every
single ingestion succeeded, and otherwise surfaces an error. -/
def ingestAll (ingest : List String → Except String (Nat × Nat)) :
    List (String × List String) → Except String (List (String × Nat × Nat))
  | [] => Except.ok []
  | (n, p) :: rest =>
    match ingest p with
    | Except.error e => Except.error e
    | Except.ok hs =>
      match ingestAll ingest rest with
      | Except.error e => Except.error e
      | Except.ok r => Except.ok ((n, hs.1, hs.2) :: r)

/-- End-to-end model of `import` (main.rs 176-232) less the arrival-order of
the worker pool (studied separately below): the returned Boolean records
whether the collection-store step (line 227, `collection.store(&db)`) was
reached, i.e. whether a collection blob was persisted.  On success the result
is the `(name, hash)` collection entries and the total size. -/
def importModel (root : FSNode) (ingest : List String → Except String (Nat × Nat)) :
    Except String (List (String × Nat) × Nat) × Bool :=
  match dataSources root with
  | Except.error e => (Except.error e, false)
  | Except.ok srcs =>
    match ingestAll ingest srcs with
    | Except.error e => (Except.error e, false)
    | Except.ok entries =>
      (Except.ok (entries.map fun x => (x.1, x.2.1), (entries.map fun x => x.2.2).sum), true)

/-- The assembly order of `import` (main.rs 203-226): `buffer_unordered`
yields ingestion results in completion order, an arbitrary permutation
`arrival` of the source indices chosen by the scheduler, and the code then
collects the `(name, hash)` pairs into the `Collection` in exactly that
arrival order, with no re-sort.  The `Collection` itself (module
`collection`, not among the sources) is modelled from the spec: an ordered
sequence of entries in insertion order. -/
def assembleEntries (sources : List (String × Nat)) (arrival : List Nat) :
    List (String × Nat) :=
  arrival.filterMap fun i => sources[i]?

/-! ## The export loop (main.rs 244-253)

`export` loads the collection and, for each `(name, hash)` entry in collection
order, derives the target with `get_export_path` and asks the store to export
the blob there; each step uses `?`, so the first failure returns immediately.
The store's export operation is an oracle; the accumulated list records the
entries whose export was performed and succeeded, in order. -/

def exportLoop (root : List String) (expOp : List String → Nat → Except String Unit) :
    List (String × Nat) → List (String × Nat) → Except String Unit × List (String × Nat)
  | [], done => (Except.ok (), done.reverse)
  | (name, h) :: rest, done =>
    match get_export_path root name with
    | Except.error e => (Except.error e, done.reverse)
    | Except.ok target =>
      match expOp target h with
      | Except.error e => (Except.error e, done.reverse)
      | Except.ok _ => exportLoop root expOp rest ((name, h) :: done)

/-- `export` (main.rs 244-253) over a loaded collection `entries` relative to
the destination root, returning its result together with the list of entries
actually exported. -/
def exportModel (root : List String) (expOp : List String → Nat → Except String Unit)
    (entries : List (String × Nat)) : Except String Unit × List (String × Nat) :=
  exportLoop root expOp entries []

/-! ## The download progress reducer (main.rs 339-401)

`show_download_progress` consumes a stream of `DownloadProgress` events and
drives two `indicatif` progress bars, `op` (overall) and `ip` (current item).
The relevant `indicatif` semantics, modelled on `Bar`:

* `set_position p` sets the position;
* `set_length l` sets the length;
* `reset` sets the position back to `0` and makes the bar live again;
* `finish_and_clear` sets the position to the length when a length has been
  set (`ProgressFinish::AndClear` in `indicatif`), and hides the bar.

The styled terminal messages are abstracted to the `OpMessage` tag they
render.  The `NetworkDone` arm prints a throughput summary to stderr; the
summaries emitted so far are accumulated in the state.  Durations are held in
nanoseconds; the throughput expression
`(bytes_read as f64 / elapsed.as_secs_f64()) as u64` is modelled with exact
integer arithmetic in place of `f64` rounding, while its division-by-zero and
saturating-cast behaviour is modelled exactly: `f64` division by zero gives
`inf` (or `NaN` for `0.0 / 0.0`), and Rust's `as u64` cast saturates `inf` to
`u64::MAX` and maps `NaN` to `0`. -/

/-- The messages `show_download_progress` sets on the overall bar. -/
inductive OpMessage where
  | connecting : OpMessage
  | requesting : OpMessage
  | downloading (blobs : Nat) : OpMessage
deriving DecidableEq

/-- Observable state of one `indicatif` progress bar. -/
structure Bar where
  pos : Nat
  length : Option Nat
  msg : OpMessage
  hidden : Bool
deriving DecidableEq

def Bar.setPosition (b : Bar) (p : Nat) : Bar := { b with pos := p }

def Bar.setLength (b : Bar) (l : Nat) : Bar := { b with length := some l }

def Bar.setMessage (b : Bar) (m : OpMessage) : Bar := { b with msg := m }

def Bar.reset (b : Bar) : Bar := { b with pos := 0, hidden := false }

def Bar.finishAndClear (b : Bar) : Bar :=
  { b with pos := b.length.getD b.pos, hidden := true }

/-- `u64::MAX`, the value Rust's saturating cast gives `f64` infinity. -/
def u64Max : Nat := 18446744073709551615

/-- The throughput printed by the `NetworkDone` arm (main.rs 388):
`(bytes_read as f64 / elapsed.as_secs_f64()) as u64` with `elapsed` in
nanoseconds.  There is no division-by-zero guard in the source: a zero
elapsed time divides by `0.0`, giving `NaN` (cast to `0`) when `bytes_read`
is `0` and `inf` (cast to `u64::MAX`) otherwise. -/
def throughput (bytesRead : Nat) (elapsedNanos : Nat) : Nat :=
  if elapsedNanos = 0 then
    if bytesRead = 0 then 0 else u64Max
  else
    min u64Max (bytesRead * 1000000000 / elapsedNanos)

/-- The `DownloadProgress` events matched by `show_download_progress`.
`other` stands for the variants of the upstream enum that fall into the
catch-all `_ => {}` arm. -/
inductive DlEvent where
  | connected : DlEvent
  | foundHashSeq (children : Nat) : DlEvent
  | found (size : Nat) (child : Nat) : DlEvent
  | progressed (offset : Nat) : DlEvent
  | done : DlEvent
  | networkDone (bytesRead : Nat) (elapsedNanos : Nat) : DlEvent
  | allDone : DlEvent
  | abort (cause : String) : DlEvent
  | other : DlEvent
deriving DecidableEq

/-- The reducer state: the two bars, the `seq` flag recording whether a
`FoundHashSeq` event has been seen, and the terminal summaries printed so far
as `(bytes_read, elapsed_nanos, throughput)` triples. -/
structure RState where
  op : Bar
  ip : Bar
  seq : Bool
  summaries : List (Nat × Nat × Nat)
deriving DecidableEq

/-- The reducer state before the first event (main.rs 342-347). -/
def initState : RState :=
  { op := { pos := 0, length := none, msg := OpMessage.connecting, hidden := false }
    ip := { pos := 0, length := none, msg := OpMessage.connecting, hidden := false }
    seq := false
    summaries := [] }

/-- One non-terminal step of `show_download_progress` (main.rs 349-398).
`allDone` and `abort` do not reach this function: the loop `break`s
respectively `bail!`s on them (see `runReducer`). -/
def stepEvent (s : RState) : DlEvent → RState
  | DlEvent.connected => { s with op := s.op.setMessage OpMessage.requesting }
  | DlEvent.foundHashSeq children =>
      { s with
        op := (((s.op.setMessage (OpMessage.downloading (children + 1))).setLength
          (children + 1)).reset)
        seq := true }
  | DlEvent.found size child =>
      { s with
        op := if s.seq then s.op.setPosition child else s.op.finishAndClear
        ip := (s.ip.setLength size).reset }
  | DlEvent.progressed offset => { s with ip := s.ip.setPosition offset }
  | DlEvent.done => { s with ip := s.ip.finishAndClear }
  | DlEvent.networkDone bytesRead elapsedNanos =>
      { s with
        op := s.op.finishAndClear
        summaries := s.summaries ++ [(bytesRead, elapsedNanos, throughput bytesRead elapsedNanos)] }
  | DlEvent.allDone => s
  | DlEvent.abort _ => s
  | DlEvent.other => s

/-- Whether the event terminates the `while let` loop: `AllDone` breaks,
`Abort` bails out with an error. -/
def isTerminal : DlEvent → Bool
  | DlEvent.allDone => true
  | DlEvent.abort _ => true
  | _ => false

/-- The event loop of `show_download_progress`: consume events in order until
the stream ends (`Ok`), an `AllDone` breaks (`Ok`), or an `Abort` bails
(`Err`); every other event updates the state with `stepEvent`. -/
def runReducer : RState → List DlEvent → RState × Except String Unit
  | s, [] => (s, Except.ok ())
  | s, e :: rest =>
    match e with
    | DlEvent.allDone => (s, Except.ok ())
    | DlEvent.abort cause => (s, Except.error ("download aborted: " ++ cause))
    | _ => runReducer (stepEvent s e) rest

/-- The sequence of states after each processed event (the scan of
`runReducer`); processing stops at the first terminal event, whose unchanged
state is recorded once. -/
def reducerTrace : RState → List DlEvent → List RState
  | _, [] => []
  | s, e :: rest =>
    match e with
    | DlEvent.allDone => [s]
    | DlEvent.abort _ => [s]
    | _ => (stepEvent s e) :: reducerTrace (stepEvent s e) rest

/-! ## Process outcome (main.rs 446-461) and the reused-directory check in
`provide` (main.rs 264-268) -/

/-- The two output channels of the process. -/
inductive Channel where
  | primaryOut : Channel
  | errorOut : Channel
deriving DecidableEq

/-- `main` (main.rs 446-461): a successful command exits with status `0` and
prints nothing; an error `e` exits with status `1` after printing
`error: {e}` on stderr.  The result pairs the exit status with the messages
printed by the outcome handling, each tagged with its channel. -/
def mainOutcome (res : Except String Unit) : Nat × List (Channel × String) :=
  match res with
  | Except.ok _ => (0, [])
  | Except.error e => (1, [(Channel.errorOut, "error: " ++ e)])

/-- The reused-directory check at the start of `provide` (main.rs 264-268):
when `.sendme-provide` already exists the process prints
`can not share twice from the same directory` with `println!` (stdout) and
exits with status `1`; otherwise the check passes (`none`). -/
def provideDirCheck (dataDirExists : Bool) : Option (List (Channel × String) × Nat) :=
  if dataDirExists then
    some ([(Channel.primaryOut, "can not share twice from the same directory")], 1)
  else none

/-! ## Small auxiliary predicates and concrete instances used in statements -/

/-- Whether a list of components is an initial segment of another. -/
def isInitialSegment : List String → List String → Bool
  | [], _ => true
  | _ :: _, [] => false
  | a :: as, b :: bs => if a = b then isInitialSegment as bs else false

/-- Whether a produced export path actually lands under the destination root
once the operating system resolves its `.` and `..` components. -/
def underRoot (root p : List String) : Bool :=
  isInitialSegment root (resolveDots p)

/-- Discriminator for the `FoundHashSeq` event. -/
def isFoundHashSeq : DlEvent → Bool
  | DlEvent.foundHashSeq _ => true
  | _ => false

/-- Discriminator for the `NetworkDone` event. -/
def isNetworkDone : DlEvent → Bool
  | DlEvent.networkDone _ _ => true
  | _ => false

/-- The event stream of progress scenario B: a three-item collection.
The spec event `CollectionDiscovered{item_count = 3}` corresponds to
`FoundHashSeq` with `children = 2`, since the code treats `children + 1` as
the number of blobs (message and overall length, main.rs 353-360). -/
def scenarioB : List DlEvent :=
  [DlEvent.connected, DlEvent.foundHashSeq 2,
   DlEvent.found 10 0, DlEvent.done,
   DlEvent.found 20 1, DlEvent.done,
   DlEvent.found 30 2, DlEvent.done,
   DlEvent.networkDone 60 1000000000]

/-- A concrete import tree: a directory `d` holding a regular file `a`, a
symbolic link `s` and a subdirectory `sub` holding a regular file `b`. -/
def treeC4 : FSNode :=
  FSNode.dir "d"
    (FSList.cons (FSNode.file "a")
      (FSList.cons (FSNode.symlink "s")
        (FSList.cons (FSNode.dir "sub" (FSList.cons (FSNode.file "b") FSList.nil))
          FSList.nil)))

/-- A concrete import tree with two regular files. -/
def treeC5 : FSNode :=
  FSNode.dir "d" (FSList.cons (FSNode.file "a") (FSList.cons (FSNode.file "b") FSList.nil))

/-- A concrete ingestion oracle that fails on the file `d/b` and succeeds,
with hash `7` and size `3`, everywhere else. -/
def ingestC5 : List String → Except String (Nat × Nat) :=
  fun p => if p = ["d", "b"] then Except.error "unreadable" else Except.ok (7, 3)

/-- A concrete export oracle that fails on the blob with hash `2` and
succeeds everywhere else. -/
def expOpC10 : List String → Nat → Except String Unit :=
  fun _ h => if h = 2 then Except.error "boom" else Except.ok ()

end Sendme

namespace Sendme

/-- Concrete sanity check of the splitter. -/
example : splitOnSlash "a/b" = ["a", "b"] := by decide

example : splitOnSlash "../x" = ["..", "x"] := by decide

example : parseComponents "/abs" = [Component.rootDir, Component.normal "abs"] := by decide

example : parseComponents "a\\b" = [Component.normal "a\\b"] := by decide

example : canonicalized_path_to_string "a/b" true = Except.ok "a/b" := rfl

example : canonicalized_path_to_string "../x" true =
    Except.error "invalid path component" := rfl

example : get_export_path ["dst"] "../secret" = Except.ok ["dst", "..", "secret"] := rfl

/-! ## General lemmas -/

theorem string_empty_append (s : String) : "" ++ s = s := rfl

/-- Reading every element of a list back by index yields the list. -/
theorem filterMap_getElem_range (l : List α) :
    ((List.range l.length).filterMap fun i => l[i]?) = l := by
  induction l with
  | nil => rfl
  | cons a t ih =>
    rw [List.length_cons, List.range_succ_eq_map]
    simp only [List.filterMap_cons, List.getElem?_cons_zero, List.filterMap_map,
      Function.comp_def, List.getElem?_cons_succ]
    rw [ih]

/-! ## C3: the import-side sanitizer on the spec's test vectors -/

/-- C3: `canonicalized_path_to_string` with `must_be_relative = true` rejects
`"../x"`, `"a/../b"`, `"/abs"`, `"a\x5cb"` and `"a/b/../../../etc"`, and
accepts `"a"`, `"a/b"` and `"a/b/c.txt"` unchanged. -/
theorem c3_sanitizer_vectors :
    canonicalized_path_to_string "../x" true = Except.error "invalid path component"
    ∧ canonicalized_path_to_string "a/../b" true = Except.error "invalid path component"
    ∧ canonicalized_path_to_string "/abs" true = Except.error "invalid path component RootDir"
    ∧ canonicalized_path_to_string "a\\b" true = Except.error "invalid path component a\\b"
    ∧ canonicalized_path_to_string "a/b/../../../etc" true
        = Except.error "invalid path component"
    ∧ canonicalized_path_to_string "a" true = Except.ok "a"
    ∧ canonicalized_path_to_string "a/b" true = Except.ok "a/b"
    ∧ canonicalized_path_to_string "a/b/c.txt" true = Except.ok "a/b/c.txt" :=
  ⟨rfl, rfl, rfl, rfl, rfl, rfl, rfl, rfl⟩

/-! ## C1: export-side path validation

`get_export_path` splits the stored name on `/` and runs
`validate_path_component` on every part; but that check only rejects parts
containing a `/`, which no part of a `/`-split can contain.  A stored entry
name whose segment is `..` is therefore accepted, and the produced
destination path escapes the destination root. -/

/-- C1: the code accepts the segment `..` (and `.`, and segments containing a
backslash), so the entry name `../secret` of a received collection is
exported to `dst/../secret`, which resolves outside the destination root
`dst`. -/
theorem c1_export_path_escapes_root :
    validate_path_component ".." = Except.ok ()
    ∧ validate_path_component "." = Except.ok ()
    ∧ validate_path_component "a\\b" = Except.ok ()
    ∧ get_export_path ["dst"] "../secret" = Except.ok ["dst", "..", "secret"]
    ∧ resolveDots ["dst", "..", "secret"] = ["secret"]
    ∧ underRoot ["dst"] ["dst", "..", "secret"] = false :=
  ⟨rfl, rfl, rfl, rfl, rfl, rfl⟩

/-! ## C2: assembly order of the ingestion results

`buffer_unordered` yields results in completion order; `import` collects them
into the collection in that order without re-sorting, so the entry sequence
depends on the scheduler. -/

/-- C2 counterexample: with the completion schedule that finishes the second
file first (a legitimate permutation of the indices), the assembled entry
sequence differs from the enumeration order, and two imports of the same
tree under different schedules yield different entry sequences. -/
theorem c2_counterexample :
    [1, 0].Perm (List.range 2)
    ∧ assembleEntries [("a.txt", 1), ("b.txt", 2)] [1, 0] = [("b.txt", 2), ("a.txt", 1)]
    ∧ assembleEntries [("a.txt", 1), ("b.txt", 2)] [0, 1] = [("a.txt", 1), ("b.txt", 2)]
    ∧ assembleEntries [("a.txt", 1), ("b.txt", 2)] [1, 0]
        ≠ assembleEntries [("a.txt", 1), ("b.txt", 2)] [0, 1] :=
  ⟨by decide, rfl, rfl, by decide⟩

/-- C2 amended: the assembled collection holds exactly the enumerated entries
(as a multiset), but in the completion order of the worker pool; no re-sort
to enumeration order takes place. -/
theorem c2_amended (sources : List (String × Nat)) (arrival : List Nat)
    (h : arrival.Perm (List.range sources.length)) :
    (assembleEntries sources arrival).Perm sources := by
  have h2 := h.filterMap fun i => sources[i]?
  rw [filterMap_getElem_range] at h2
  exact h2

/-- Witness for C2 amended, at the two-entry source list and the swapped
completion schedule. -/
theorem c2_amended_witness :
    ([1, 0].Perm (List.range ([("a.txt", 1), ("b.txt", 2)] : List (String × Nat)).length))
    ∧ (assembleEntries [("a.txt", 1), ("b.txt", 2)] [1, 0]).Perm [("a.txt", 1), ("b.txt", 2)] :=
  ⟨by decide, c2_amended [("a.txt", 1), ("b.txt", 2)] [1, 0] (by decide)⟩

/-! ## C9: exit status and output channels -/

/-- C9 counterexample: the reused-directory check of `provide` is a fatal
error (it exits with status `1`) whose message is printed on the primary
output channel, not the error channel. -/
theorem c9_counterexample :
    provideDirCheck true
      = some ([(Channel.primaryOut, "can not share twice from the same directory")], 1) :=
  rfl

/-- C9 amended: a successful command exits with status `0` and every error
that propagates to `main` exits with status `1` with its message on the
error channel; the single exception is `provide`'s reused-directory check,
which exits with status `1` but prints its message on the primary output
channel. -/
theorem c9_amended :
    mainOutcome (Except.ok ()) = (0, [])
    ∧ (∀ e, mainOutcome (Except.error e) = (1, [(Channel.errorOut, "error: " ++ e)]))
    ∧ provideDirCheck false = none
    ∧ provideDirCheck true
        = some ([(Channel.primaryOut, "can not share twice from the same directory")], 1) :=
  ⟨rfl, fun _ => rfl, rfl, rfl⟩

/-! ## Reducer lemmas -/

/-- Only the `NetworkDone` arm touches the summary list. -/
theorem stepEvent_summaries (s : RState) (e : DlEvent) (h : isNetworkDone e = false) :
    (stepEvent s e).summaries = s.summaries := by
  cases e <;> simp_all [stepEvent, isNetworkDone]

/-- Only the `FoundHashSeq` arm sets the `seq` flag, and nothing resets it. -/
theorem stepEvent_seq (s : RState) (e : DlEvent) :
    (stepEvent s e).seq = (s.seq || isFoundHashSeq e) := by
  cases e <;> simp [stepEvent, isFoundHashSeq]

/-- The `seq` flag after a run of steps: set exactly when the initial flag was
set or some stepped event was a `FoundHashSeq`. -/
theorem foldl_seq (ys : List DlEvent) :
    ∀ s : RState, (List.foldl stepEvent s ys).seq = (s.seq || ys.any isFoundHashSeq) := by
  induction ys with
  | nil => intro s; simp
  | cons y ys ih =>
    intro s
    rw [List.foldl_cons, ih, List.any_cons, stepEvent_seq, Bool.or_assoc]

/-- A non-terminal event is consumed by stepping the state. -/
theorem runReducer_nonterminal (s : RState) (e : DlEvent) (rest : List DlEvent)
    (h : isTerminal e = false) :
    runReducer s (e :: rest) = runReducer (stepEvent s e) rest := by
  cases e <;> simp_all [runReducer, isTerminal]

/-! ## C6: an abort event terminates the reducer -/

/-- C6: when an `Abort` event follows a run of non-terminal events, the
reducer stops with the `download aborted` error carrying the cause, in the
state reached just before the abort, and the events after the abort are
never processed (the run's outcome does not depend on them). -/
theorem c6_abort_terminal (xs ys : List DlEvent) (cause : String)
    (h : ∀ x ∈ xs, isTerminal x = false) :
    runReducer initState (xs ++ DlEvent.abort cause :: ys)
      = (List.foldl stepEvent initState xs, Except.error ("download aborted: " ++ cause))
    ∧ runReducer initState (xs ++ DlEvent.abort cause :: ys)
      = runReducer initState (xs ++ [DlEvent.abort cause]) := by
  have key : ∀ (zs : List DlEvent), (∀ x ∈ zs, isTerminal x = false) → ∀ (s : RState)
      (ws : List DlEvent), runReducer s (zs ++ DlEvent.abort cause :: ws)
        = (List.foldl stepEvent s zs, Except.error ("download aborted: " ++ cause)) := by
    intro zs
    induction zs with
    | nil => intro _ s ws; rfl
    | cons z zs ih =>
      intro hz s ws
      have hzt : isTerminal z = false := hz z (List.mem_cons_self z zs)
      rw [List.cons_append, runReducer_nonterminal s z _ hzt, List.foldl_cons]
      exact ih (fun x hx => hz x (List.mem_cons_of_mem z hx)) (stepEvent s z) ws
  exact ⟨key xs h initState ys, (key xs h initState ys).trans (key xs h initState []).symm⟩

/-- Witness for C6: a concrete aborted stream with one trailing event. -/
theorem c6_witness :
    runReducer initState
        ([DlEvent.connected, DlEvent.found 5 0] ++ DlEvent.abort "boom" :: [DlEvent.progressed 3])
      = (List.foldl stepEvent initState [DlEvent.connected, DlEvent.found 5 0],
          Except.error ("download aborted: " ++ "boom"))
    ∧ runReducer initState
        ([DlEvent.connected, DlEvent.found 5 0] ++ DlEvent.abort "boom" :: [DlEvent.progressed 3])
      = runReducer initState
          ([DlEvent.connected, DlEvent.found 5 0] ++ [DlEvent.abort "boom"]) :=
  c6_abort_terminal [DlEvent.connected, DlEvent.found 5 0] [DlEvent.progressed 3] "boom"
    (by decide)

/-! ## C7: the `Found` arm and progress scenario B -/

/-- C7: a `Found` (item started) event sets the overall bar's position to the
item's child index exactly when a `FoundHashSeq` was stepped earlier (the
`seq` flag, which holds for a run from the initial state exactly when the
processed events contain a `FoundHashSeq`), and otherwise clears the overall
bar; in both branches the current-item bar is reset to position `0` with the
declared size as its length.  On the spec's scenario B stream the overall
position sequence after the two setup events is `[0, 0, 1, 1, 2, 2, 3]` and
the reducer finishes without error. -/
theorem c7_item_started_and_scenarioB :
    (∀ (s : RState) (size child : Nat),
      (stepEvent s (DlEvent.found size child)).ip.pos = 0
      ∧ (stepEvent s (DlEvent.found size child)).ip.length = some size
      ∧ (s.seq = true → (stepEvent s (DlEvent.found size child)).op = s.op.setPosition child)
      ∧ (s.seq = false → (stepEvent s (DlEvent.found size child)).op = s.op.finishAndClear
          ∧ (stepEvent s (DlEvent.found size child)).op.hidden = true))
    ∧ (∀ xs : List DlEvent,
        (List.foldl stepEvent initState xs).seq = true ↔ ∃ c, DlEvent.foundHashSeq c ∈ xs)
    ∧ (reducerTrace initState scenarioB).map (fun s => s.op.pos) = [0, 0, 0, 0, 1, 1, 2, 2, 3]
    ∧ (((reducerTrace initState scenarioB).map fun s => s.op.pos).drop 2)
        = [0, 0, 1, 1, 2, 2, 3]
    ∧ (runReducer initState scenarioB).2 = Except.ok () := by
  refine ⟨?_, ?_, rfl, rfl, rfl⟩
  · intro s size child
    refine ⟨rfl, rfl, fun hs => ?_, fun hs => ?_⟩
    · simp [stepEvent, hs]
    · constructor
      · simp [stepEvent, hs]
      · simp [stepEvent, hs, Bar.finishAndClear]
  · intro xs
    rw [foldl_seq]
    simp only [initState, Bool.false_or, List.any_eq_true]
    constructor
    · rintro ⟨x, hx, hfx⟩
      cases x <;> simp_all [isFoundHashSeq]
      exact ⟨_, hx⟩
    · rintro ⟨c, hc⟩
      exact ⟨DlEvent.foundHashSeq c, hc, rfl⟩

/-- Witness for C7, instantiating the universally quantified parts at
concrete states and streams. -/
theorem c7_witness :
    (stepEvent initState (DlEvent.found 10 0)).ip.pos = 0
    ∧ ((List.foldl stepEvent initState [DlEvent.connected, DlEvent.foundHashSeq 2]).seq = true
        ↔ ∃ c, DlEvent.foundHashSeq c ∈ [DlEvent.connected, DlEvent.foundHashSeq 2]) :=
  ⟨(c7_item_started_and_scenarioB.1 initState 10 0).1,
    c7_item_started_and_scenarioB.2.1 [DlEvent.connected, DlEvent.foundHashSeq 2]⟩

/-! ## C8: the terminal summary of `NetworkDone` -/

/-- C8 counterexample: the `NetworkDone` arm has no division-by-zero guard.
With `bytes_read = 1000` and a zero elapsed time the reducer still emits a
summary, and its throughput is the saturated `f64` division-by-zero result
`u64::MAX` rather than any guarded value. -/
theorem c8_counterexample :
    (runReducer initState [DlEvent.networkDone 1000 0]).1.summaries
      = [(1000, 0, u64Max)]
    ∧ throughput 1000 0 = u64Max
    ∧ u64Max = 2 ^ 64 - 1
    ∧ (runReducer initState [DlEvent.networkDone 1000 0]).2 = Except.ok () :=
  ⟨rfl, rfl, by decide, rfl⟩

/-- C8 amended: processing a stream whose single `NetworkDone` event follows
only non-terminal, non-`NetworkDone` events emits exactly one terminal
summary, whose throughput is `bytes_read / elapsed` computed without any
division-by-zero guard (`throughput`, which saturates to `u64::MAX` on a
zero elapsed). -/
theorem c8_amended (xs : List DlEvent) (b e : Nat)
    (h : ∀ x ∈ xs, isTerminal x = false ∧ isNetworkDone x = false) :
    (runReducer initState (xs ++ [DlEvent.networkDone b e])).1.summaries
      = [(b, e, throughput b e)]
    ∧ (runReducer initState (xs ++ [DlEvent.networkDone b e])).2 = Except.ok () := by
  have key : ∀ (zs : List DlEvent), (∀ x ∈ zs, isTerminal x = false ∧ isNetworkDone x = false) →
      ∀ s : RState,
      (runReducer s (zs ++ [DlEvent.networkDone b e])).1.summaries
        = s.summaries ++ [(b, e, throughput b e)]
      ∧ (runReducer s (zs ++ [DlEvent.networkDone b e])).2 = Except.ok () := by
    intro zs
    induction zs with
    | nil => intro _ s; exact ⟨rfl, rfl⟩
    | cons z zs ih =>
      intro hz s
      have hzt := hz z (List.mem_cons_self z zs)
      rw [List.cons_append, runReducer_nonterminal s z _ hzt.1]
      have hrec := ih (fun x hx => hz x (List.mem_cons_of_mem z hx)) (stepEvent s z)
      rw [stepEvent_summaries s z hzt.2] at hrec
      exact hrec
  have := key xs h initState
  rwa [show initState.summaries = [] from rfl, List.nil_append] at this

/-- Witness for C8 amended: a concrete stream with one `NetworkDone`. -/
theorem c8_amended_witness :
    (runReducer initState ([DlEvent.connected] ++ [DlEvent.networkDone 1000 1000000000])).1.summaries
      = [(1000, 1000000000, throughput 1000 1000000000)]
    ∧ (runReducer initState
        ([DlEvent.connected] ++ [DlEvent.networkDone 1000 1000000000])).2 = Except.ok () :=
  c8_amended [DlEvent.connected] 1000 1000000000 (by decide)

/-! ## C5: no partial collection is ever persisted -/

/-- `collect::<anyhow::Result<Vec<_>>>` over the ingestion results succeeds
exactly when every single ingestion succeeded. -/
theorem ingestAll_ok_iff (ingest : List String → Except String (Nat × Nat))
    (l : List (String × List String)) :
    (∃ v, ingestAll ingest l = Except.ok v) ↔ ∀ x ∈ l, ∃ v, ingest x.2 = Except.ok v := by
  induction l with
  | nil => simp [ingestAll]
  | cons a t ih =>
    obtain ⟨n, p⟩ := a
    constructor
    · rintro ⟨v, hv⟩
      simp only [ingestAll] at hv
      cases ha : ingest p with
      | error e => rw [ha] at hv; simp at hv
      | ok hs =>
        rw [ha] at hv
        cases hr : ingestAll ingest t with
        | error e => rw [hr] at hv; simp at hv
        | ok r =>
          intro x hx
          rcases List.mem_cons.mp hx with hx1 | hx2
          · rw [hx1]; exact ⟨hs, ha⟩
          · exact ih.mp ⟨r, hr⟩ x hx2
    · intro hall
      obtain ⟨hs, ha⟩ := hall (n, p) (List.mem_cons_self _ _)
      obtain ⟨r, hr⟩ := ih.mpr fun x hx => hall x (List.mem_cons_of_mem _ hx)
      refine ⟨(n, hs.1, hs.2) :: r, ?_⟩
      simp only [ingestAll]
      rw [ha, hr]

/-- C5: the collection-store step of `import` is reached (and hence a
collection blob persisted) exactly when the walk-and-naming step and every
single file ingestion succeeded; whenever it is not reached, `import`
returns an error.  In particular a single failing ingestion or a failing
sanitization yields an error and no persisted collection. -/
theorem c5_store_only_after_success (root : FSNode)
    (ingest : List String → Except String (Nat × Nat)) :
    ((importModel root ingest).2 = true ↔
      (∃ srcs, dataSources root = Except.ok srcs ∧ ∀ x ∈ srcs, ∃ v, ingest x.2 = Except.ok v))
    ∧ ((importModel root ingest).2 = false ↔
      ∃ e, (importModel root ingest).1 = Except.error e) := by
  rcases hds : dataSources root with e | srcs
  · have h1 : importModel root ingest = (Except.error e, false) := by
      simp only [importModel, hds]
    rw [h1]
    constructor
    · constructor
      · intro h; simp at h
      · rintro ⟨srcs2, hs2, _⟩
        exact Except.noConfusion hs2
    · simp
  · rcases hia : ingestAll ingest srcs with e | entries
    · have h1 : importModel root ingest = (Except.error e, false) := by
        simp only [importModel, hds, hia]
      rw [h1]
      constructor
      · constructor
        · intro h; simp at h
        · rintro ⟨srcs2, hs2, hall⟩
          rw [Except.ok.injEq] at hs2
          subst hs2
          obtain ⟨v, hv⟩ := (ingestAll_ok_iff ingest srcs).mpr hall
          rw [hia] at hv
          exact Except.noConfusion hv
      · simp
    · have h1 : importModel root ingest
          = (Except.ok (entries.map fun x => (x.1, x.2.1),
              (entries.map fun x => x.2.2).sum), true) := by
        simp only [importModel, hds, hia]
      rw [h1]
      constructor
      · constructor
        · intro _
          exact ⟨srcs, rfl, (ingestAll_ok_iff ingest srcs).mp ⟨entries, hia⟩⟩
        · intro _; rfl
      · constructor
        · intro h; simp at h
        · rintro ⟨e2, he2⟩; simp at he2

/-- Witness for C5: a concrete two-file tree whose second file is
unreadable; the import errors and nothing is persisted. -/
theorem c5_witness :
    ((importModel treeC5 ingestC5).2 = true ↔
      (∃ srcs, dataSources treeC5 = Except.ok srcs
        ∧ ∀ x ∈ srcs, ∃ v, ingestC5 x.2 = Except.ok v))
    ∧ (importModel treeC5 ingestC5).2 = false
    ∧ (importModel treeC5 ingestC5).1 = Except.error "unreadable" :=
  ⟨(c5_store_only_after_success treeC5 ingestC5).1, rfl, rfl⟩

/-! ## C10: materialization stops at the first failing entry -/

/-- The export loop runs through the successful head entries and returns the
failing entry's error with exactly the head entries accumulated, never
touching the entries after the failure. -/
theorem exportLoop_stops (root : List String) (expOp : List String → Nat → Except String Unit)
    (bn : String) (bh : Nat) (post : List (String × Nat))
    (hbad : (∃ e, get_export_path root bn = Except.error e)
      ∨ (∃ t, get_export_path root bn = Except.ok t ∧ ∃ e, expOp t bh = Except.error e)) :
    ∀ pre done : List (String × Nat),
      (∀ x ∈ pre, ∃ t, get_export_path root x.1 = Except.ok t ∧ expOp t x.2 = Except.ok ()) →
      exportLoop root expOp (pre ++ (bn, bh) :: post) done
          = exportLoop root expOp (pre ++ [(bn, bh)]) done
        ∧ ∃ e, exportLoop root expOp (pre ++ [(bn, bh)]) done
          = (Except.error e, done.reverse ++ pre) := by
  intro pre
  induction pre with
  | nil =>
    intro done _
    rcases hbad with ⟨e, he⟩ | ⟨t, ht, e, he⟩
    · exact ⟨by simp [exportLoop, he], e, by simp [exportLoop, he]⟩
    · exact ⟨by simp [exportLoop, ht, he], e, by simp [exportLoop, ht, he]⟩
  | cons x pre ih =>
    intro done hok
    obtain ⟨xn, xh⟩ := x
    obtain ⟨t, hx1, hx2⟩ := hok (xn, xh) (List.mem_cons_self _ _)
    replace hx1 : get_export_path root xn = Except.ok t := hx1
    replace hx2 : expOp t xh = Except.ok () := hx2
    simp only [List.cons_append, exportLoop, hx1, hx2]
    have hrec := ih ((xn, xh) :: done) fun y hy => hok y (List.mem_cons_of_mem _ hy)
    refine ⟨hrec.1, ?_⟩
    obtain ⟨e, he⟩ := hrec.2
    refine ⟨e, he.trans ?_⟩
    rw [List.reverse_cons, List.append_assoc, List.singleton_append]

/-- C10: when every entry before `bad` exports successfully and `bad` fails
(by path validation or by the store's export), `export` returns that error
immediately: the entries after `bad` in collection order are never attempted
(the outcome does not depend on them) and the performed exports are exactly
the entries before `bad`. -/
theorem c10_export_first_error (root : List String)
    (expOp : List String → Nat → Except String Unit)
    (pre post : List (String × Nat)) (bn : String) (bh : Nat)
    (hok : ∀ x ∈ pre, ∃ t, get_export_path root x.1 = Except.ok t ∧ expOp t x.2 = Except.ok ())
    (hbad : (∃ e, get_export_path root bn = Except.error e)
      ∨ (∃ t, get_export_path root bn = Except.ok t ∧ ∃ e, expOp t bh = Except.error e)) :
    exportModel root expOp (pre ++ (bn, bh) :: post)
        = exportModel root expOp (pre ++ [(bn, bh)])
    ∧ ∃ e, exportModel root expOp (pre ++ (bn, bh) :: post) = (Except.error e, pre) := by
  have h := exportLoop_stops root expOp bn bh post hbad pre [] hok
  unfold exportModel
  refine ⟨h.1, ?_⟩
  obtain ⟨e, he⟩ := h.2
  exact ⟨e, (h.1.trans he).trans (by simp)⟩

/-- Witness for C10: a three-entry collection whose middle entry fails to
export; only the first entry is materialized. -/
theorem c10_witness :
    exportModel ["out"] expOpC10 ([("a", 1)] ++ ("b", 2) :: [("c", 3)])
      = exportModel ["out"] expOpC10 ([("a", 1)] ++ [("b", 2)])
    ∧ ∃ e, exportModel ["out"] expOpC10 ([("a", 1)] ++ ("b", 2) :: [("c", 3)])
      = (Except.error e, [("a", 1)]) :=
  c10_export_first_error ["out"] expOpC10 [("a", 1)] [("c", 3)] "b" 2
    (by
      intro x hx
      have hx2 : x = ("a", 1) := List.mem_singleton.mp hx
      rw [hx2]
      exact ⟨["out", "a"], rfl, rfl⟩)
    (Or.inr ⟨["out", "b"], rfl, "boom", rfl⟩)

/-! ## C4: the entries produced by `import` -/

/-- Unpacking of `validName`. -/
theorem validName_spec (s : String) (h : validName s = true) :
    s ≠ "" ∧ s ≠ "." ∧ s ≠ ".." ∧ strContains s '/' = false ∧ strContains s '\\' = false := by
  simp only [validName, Bool.and_eq_true, Bool.not_eq_true', decide_eq_false_iff_not] at h
  exact ⟨h.1.1.1.1, h.1.1.1.2, h.1.1.2, h.1.2, h.2⟩

/-- On well-formed filesystem names the component parse is the identity:
every segment is a `Normal` component. -/
theorem componentsOfSegments_valid (p : List String) (h : ∀ s ∈ p, validName s = true) :
    componentsOfSegments false p = p.map Component.normal := by
  have hne : (p.filter fun s => s ≠ "") = p := by
    apply List.filter_eq_self.mpr
    intro a ha
    simp [(validName_spec a (h a ha)).1]
  have hdot : (p.filter fun s => s ≠ ".") = p := by
    apply List.filter_eq_self.mpr
    intro a ha
    simp [(validName_spec a (h a ha)).2.1]
  have hmap : (p.map fun s => if s = ".." then Component.parentDir else Component.normal s)
      = p.map Component.normal := by
    apply List.map_congr_left
    intro s hs
    rw [if_neg (validName_spec s (h s hs)).2.2.1]
  unfold componentsOfSegments
  rw [hne, hdot, hmap]
  cases p with
  | nil => rfl
  | cons a t =>
    have ha := validName_spec a (h a (List.mem_cons_self a t))
    dsimp only
    rw [if_neg ha.2.1]
    rfl

/-- `collectParts` accepts a list of well-formed `Normal` components and
returns them unchanged, with no leading slash. -/
theorem collectParts_normals : ∀ p : List String, (∀ s ∈ p, validName s = true) →
    collectParts true (p.map Component.normal) = Except.ok (false, p)
  | [], _ => rfl
  | a :: t, h => by
    have ha := validName_spec a (h a (List.mem_cons_self a t))
    have ih := collectParts_normals t fun s hs => h s (List.mem_cons_of_mem a hs)
    simp [collectParts, ha.2.2.2.1, ha.2.2.2.2, ih, Except.map]

/-- The naming step succeeds on a well-formed relative path and returns its
`/`-joined form. -/
theorem canonicalize_valid (p : List String) (h : ∀ s ∈ p, validName s = true) :
    canonicalizedComponentsToString (componentsOfSegments false p) true
      = Except.ok (joinSlash p) := by
  rw [componentsOfSegments_valid p h]
  unfold canonicalizedComponentsToString
  rw [collectParts_normals p h]
  simp [Except.map, string_empty_append]

mutual
/-- Filtering the walk down to regular files yields exactly the
`regularFiles` paths, for any walk start. -/
theorem walk_filter_files : ∀ (t : FSNode) (pre : List String),
    ((walkdirAux pre t).filterMap fun pr => if pr.2 then some pr.1 else none)
      = regularFiles pre t
  | FSNode.file n, pre => by simp [walkdirAux, regularFiles]
  | FSNode.symlink n, pre => by simp [walkdirAux, regularFiles]
  | FSNode.dir n cs, pre => by
    simp only [walkdirAux, regularFiles, List.filterMap_cons]
    exact walk_filter_filesList cs (pre ++ [n])
theorem walk_filter_filesList : ∀ (ts : FSList) (pre : List String),
    ((walkdirList pre ts).filterMap fun pr => if pr.2 then some pr.1 else none)
      = regularFilesList pre ts
  | FSList.nil, _ => rfl
  | FSList.cons h t, pre => by
    simp only [walkdirList, regularFilesList, List.filterMap_append]
    rw [walk_filter_files h pre, walk_filter_filesList t pre]
end

mutual
/-- Every regular-file path of a well-formed tree extends the walk start by
the node's own name and then only well-formed names. -/
theorem regularFiles_shape : ∀ (t : FSNode), validTree t = true → ∀ (pre : List String),
    ∀ p ∈ regularFiles pre t, ∃ rest, p = pre ++ nodeName t :: rest
      ∧ ∀ s ∈ nodeName t :: rest, validName s = true
  | FSNode.file n, h, pre => by
    intro p hp
    rw [regularFiles, List.mem_singleton] at hp
    refine ⟨[], hp, ?_⟩
    intro s hs
    rw [List.mem_singleton] at hs
    rw [hs, nodeName]
    exact h
  | FSNode.symlink n, _, pre => by
    intro p hp
    rw [regularFiles] at hp
    exact absurd hp (List.not_mem_nil p)
  | FSNode.dir n cs, h, pre => by
    intro p hp
    rw [validTree, Bool.and_eq_true] at h
    rw [regularFiles] at hp
    obtain ⟨rest, hp1, _, hval⟩ := regularFilesList_shape cs h.2 (pre ++ [n]) p hp
    refine ⟨rest, ?_, ?_⟩
    · rw [hp1, List.append_assoc, List.singleton_append]
      rfl
    · intro s hs
      rcases List.mem_cons.mp hs with hs1 | hs2
      · rw [hs1]; exact h.1
      · exact hval s hs2
theorem regularFilesList_shape : ∀ (ts : FSList), validTreeList ts = true →
    ∀ (pre : List String), ∀ p ∈ regularFilesList pre ts,
      ∃ rest, p = pre ++ rest ∧ rest ≠ [] ∧ ∀ s ∈ rest, validName s = true
  | FSList.nil, _, pre => by
    intro p hp
    rw [regularFilesList] at hp
    exact absurd hp (List.not_mem_nil p)
  | FSList.cons hd tl, h, pre => by
    intro p hp
    rw [validTreeList, Bool.and_eq_true] at h
    rw [regularFilesList, List.mem_append] at hp
    rcases hp with hp | hp
    · obtain ⟨rest, hp1, hval⟩ := regularFiles_shape hd h.1 pre p hp
      exact ⟨nodeName hd :: rest, hp1, List.cons_ne_nil _ _, hval⟩
    · exact regularFilesList_shape tl h.2 pre p hp
end

/-- The naming step succeeds on any list of well-formed relative paths,
producing the `/`-joined name next to each path. -/
theorem buildNames_ok : ∀ ps : List (List String),
    (∀ p ∈ ps, ∀ s ∈ p, validName s = true) →
    buildNames ps = Except.ok (ps.map fun p => (joinSlash p, p))
  | [], _ => rfl
  | p :: rest, h => by
    have h1 := canonicalize_valid p (h p (List.mem_cons_self p rest))
    have ih := buildNames_ok rest fun q hq => h q (List.mem_cons_of_mem p hq)
    simp [buildNames, h1, ih]

/-- C4: for a well-formed import root, `import`'s walk-and-naming step
succeeds and the produced entries are exactly the regular files reachable
from the root (directories contribute no entry and symbolic links are
skipped, by definition of `regularFiles`), each named by its `/`-joined path
relative to the parent of the root; every such path starts with the root
node's own name, a lone file root produces the single entry named by the
file's name, a symlink root produces no entry, and a directory root prefixes
every entry with the directory's own name. -/
theorem c4_import_entries (root : FSNode) (h : validTree root = true) :
    dataSources root = Except.ok ((regularFiles [] root).map fun p => (joinSlash p, p))
    ∧ (∀ p ∈ regularFiles [] root, ∃ rest, p = nodeName root :: rest)
    ∧ (∀ n, root = FSNode.file n → dataSources root = Except.ok [(n, [n])])
    ∧ (∀ n, root = FSNode.symlink n → dataSources root = Except.ok [])
    ∧ (∀ n cs, root = FSNode.dir n cs → regularFiles [] root = regularFilesList [n] cs) := by
  have hshape := regularFiles_shape root h []
  have hmain : dataSources root
      = Except.ok ((regularFiles [] root).map fun p => (joinSlash p, p)) := by
    unfold dataSources
    rw [walk_filter_files root []]
    apply buildNames_ok
    intro p hp
    obtain ⟨rest, hp1, hp2⟩ := hshape p hp
    rw [List.nil_append] at hp1
    rw [hp1]
    exact hp2
  refine ⟨hmain, ?_, ?_, ?_, ?_⟩
  · intro p hp
    obtain ⟨rest, hp1, _⟩ := hshape p hp
    rw [List.nil_append] at hp1
    exact ⟨rest, hp1⟩
  · intro n hn
    subst hn
    exact hmain.trans rfl
  · intro n hn
    subst hn
    exact hmain.trans rfl
  · intro n cs hn
    subst hn
    rfl

/-- Witness for C4: the concrete tree `treeC4` (file, symlink and nested
file under a directory root). -/
theorem c4_witness :
    validTree treeC4 = true
    ∧ dataSources treeC4 = Except.ok [("d/a", ["d", "a"]), ("d/sub/b", ["d", "sub", "b"])]
    ∧ regularFiles [] treeC4 = [["d", "a"], ["d", "sub", "b"]] := by
  refine ⟨by decide, ?_, rfl⟩
  have h := (c4_import_entries treeC4 (by decide)).1
  rw [h]
  rfl

end Sendme
